import Mathlib

/-!
Shallow embedding of the bridging layer of this repository:
the stream-to-reader adapter (`futures-util/src/try_stream/into_async_read.rs`),
the executor compatibility bridge (`futures-util/src/compat/executor.rs`),
the TCP reactor bridge (`mio/src/tcp.rs`) and the fault-injecting test
decorators (`futures-test/src/io/read/mod.rs`), together with theorems
settling the specification claims about them.

Bytes are modelled as `Nat`, chunks as `List Nat`, and the upstream
`TryStream` as the list of items it will yield when polled (`Except.ok`
a chunk, `Except.error` an I/O error); an exhausted list is the stream's
`None` end-of-stream signal.  `Poll::Pending` does not arise for the
adapter claims because the claims quantify over the items the upstream
produces, not over its suspensions.
-/

/-- Error kinds of `std::io::Error` that the embedded code inspects. -/
inductive ErrorKind where
  | wouldBlock
  | addrInUse
  | connectionRefused
  | other
deriving DecidableEq, Repr

/-- An `std::io::Error`, reduced to the data the embedded code consults:
its kind and an identifying code (so distinct errors stay distinct). -/
structure IOErr where
  kind : ErrorKind
  code : Nat
deriving DecidableEq, Repr

/-- Decidable equality for `Except`, used to evaluate the embedded
definitions on concrete inputs. -/
instance {ε α : Type} [DecidableEq ε] [DecidableEq α] : DecidableEq (Except ε α) := fun x y =>
  match x, y with
  | Except.ok a, Except.ok b => decidable_of_iff (a = b) (by simp)
  | Except.ok _, Except.error _ => isFalse (by simp)
  | Except.error _, Except.ok _ => isFalse (by simp)
  | Except.error a, Except.error b => decidable_of_iff (a = b) (by simp)

namespace IntoAsyncReadModel

/-- `ReadState<T>` from `into_async_read.rs`: `Ready { chunk, chunk_start }`,
`PendingChunk`, or `Eof`. -/
inductive ReadState where
  | Ready (chunk : List Nat) (chunk_start : Nat)
  | PendingChunk
  | Eof
deriving DecidableEq, Repr

/-- `IntoAsyncRead<St>`: the wrapped stream (as the list of items it has
yet to yield) together with the `ReadState`. -/
structure IntoAsyncRead where
  stream : List (Except IOErr (List Nat))
  state : ReadState
deriving DecidableEq, Repr

/-- `IntoAsyncRead::new`: starts in `ReadState::PendingChunk`. -/
def IntoAsyncRead.new (s : List (Except IOErr (List Nat))) : IntoAsyncRead :=
  { stream := s, state := ReadState.PendingChunk }

/-- The `ReadState::Ready` arm of `poll_read`'s loop: copy
`min(buf.len(), chunk.len() - chunk_start)` bytes out of the chunk,
advance `chunk_start`, drop back to `PendingChunk` when the chunk is
spent, and return the copied bytes. -/
def readFromChunk (chunk : List Nat) (chunk_start bufLen : Nat) :
    List Nat × ReadState :=
  let len := min bufLen (chunk.length - chunk_start)
  let out := (chunk.drop chunk_start).take len
  let chunk_start' := chunk_start + len
  (out,
    if chunk.length = chunk_start' then ReadState.PendingChunk
    else ReadState.Ready chunk chunk_start')

/-- `IntoAsyncRead::poll_read` with a caller buffer of length `bufLen`,
with the upstream always ready (the claims range over produced items).
Returns the bytes written into the buffer (`Ok`) or the upstream error,
with the adapter after the call.  The source's `loop` runs at most two
arms per call: `PendingChunk` either returns or installs a `Ready` state
and `continue`s into the `Ready` arm, which always returns. -/
def poll_read (r : IntoAsyncRead) (bufLen : Nat) :
    Except IOErr (List Nat) × IntoAsyncRead :=
  match r.state with
  | ReadState.Ready chunk chunk_start =>
      let (out, st) := readFromChunk chunk chunk_start bufLen
      (Except.ok out, { r with state := st })
  | ReadState.PendingChunk =>
      match r.stream with
      | Except.ok chunk :: rest =>
          let (out, st) := readFromChunk chunk 0 bufLen
          (Except.ok out, { stream := rest, state := st })
      | Except.error e :: rest =>
          (Except.error e, { stream := rest, state := ReadState.Eof })
      | [] =>
          (Except.ok [], { stream := [], state := ReadState.Eof })
  | ReadState.Eof => (Except.ok [], r)

/-- `IntoAsyncRead::poll_fill_buf`: from `PendingChunk` pull one item
(installing `Ready chunk 0` on a chunk, latching `Eof` on error or end),
then expose `chunk[chunk_start..]` when `Ready`, an empty slice when
`Eof`. -/
def poll_fill_buf (r : IntoAsyncRead) :
    Except IOErr (List Nat) × IntoAsyncRead :=
  match r.state with
  | ReadState.PendingChunk =>
      match r.stream with
      | Except.ok chunk :: rest =>
          (Except.ok ((chunk.drop 0)),
            { stream := rest, state := ReadState.Ready chunk 0 })
      | Except.error e :: rest =>
          (Except.error e, { stream := rest, state := ReadState.Eof })
      | [] =>
          (Except.ok [], { stream := [], state := ReadState.Eof })
  | ReadState.Ready chunk chunk_start =>
      (Except.ok (chunk.drop chunk_start), r)
  | ReadState.Eof => (Except.ok [], r)

/-- `IntoAsyncRead::consume(amount)`: advance `chunk_start`, returning
`none` exactly where the source's `debug_assert!` checks fault — when
`chunk_start` would pass the chunk length, or when no chunk is held. -/
def consume (r : IntoAsyncRead) (amount : Nat) : Option IntoAsyncRead :=
  match r.state with
  | ReadState.Ready chunk chunk_start =>
      let chunk_start' := chunk_start + amount
      if chunk_start' ≤ chunk.length then
        some { r with state :=
          if chunk.length ≤ chunk_start' then ReadState.PendingChunk
          else ReadState.Ready chunk chunk_start' }
      else none
  | _ => none

/-- Concatenation of the chunks the upstream produces before its first
error or its end: the bytes the adapter is expected to deliver. -/
def goodPrefix : List (Except IOErr (List Nat)) → List Nat
  | [] => []
  | Except.ok c :: rest => c ++ goodPrefix rest
  | Except.error _ :: _ => []

/-- Bytes the adapter can still deliver: the unconsumed tail of a held
chunk plus the chunks before the upstream's first error or end; nothing
once `Eof` (the stream is never polled again). -/
def remaining (r : IntoAsyncRead) : List Nat :=
  match r.state with
  | ReadState.Ready chunk chunk_start => chunk.drop chunk_start ++ goodPrefix r.stream
  | ReadState.PendingChunk => goodPrefix r.stream
  | ReadState.Eof => []

/-- Reachability invariant of states produced by `poll_read`: a held
chunk always has unconsumed bytes. -/
def Inv (r : IntoAsyncRead) : Prop :=
  ∀ chunk chunk_start, r.state = ReadState.Ready chunk chunk_start →
    chunk_start < chunk.length

/-- Invariant of every adapter state reachable from `new` under
`poll_read`, `poll_fill_buf` and successful `consume`: a held chunk
either has unconsumed bytes, or is a zero-length chunk freshly
installed at offset 0 (which only `poll_fill_buf` can install). -/
def ReachInv (r : IntoAsyncRead) : Prop :=
  ∀ chunk chunk_start, r.state = ReadState.Ready chunk chunk_start →
    chunk_start < chunk.length ∨ (chunk_start = 0 ∧ chunk = [])

/-- Termination measure for draining by `poll_read`: deliverable bytes,
plus upstream items still to pull, plus one while not `Eof`. -/
def drainMeasure (r : IntoAsyncRead) : Nat :=
  (remaining r).length +
    (match r.state with
     | ReadState.Eof => 0
     | _ => r.stream.length + 1)

/-- Drive `poll_read` once per buffer length in `bufLens`, concatenating
the bytes delivered; stop at the first upstream error. -/
def readAll (r : IntoAsyncRead) : List Nat → List Nat × IntoAsyncRead
  | [] => ([], r)
  | n :: rest =>
      match poll_read r n with
      | (Except.error _, r') => ([], r')
      | (Except.ok out, r') =>
          (out ++ (readAll r' rest).1, (readAll r' rest).2)

example : readAll (IntoAsyncRead.new [Except.ok [1,2], Except.ok [], Except.ok [3]])
    [1,1,1,1,1,1,1] = ([1,2,3], { stream := [], state := ReadState.Eof }) := by decide

example : poll_read (IntoAsyncRead.new [Except.ok [], Except.ok [1,2]]) 5 =
    (Except.ok [], { stream := [Except.ok [1,2]], state := ReadState.PendingChunk }) := by
  decide

/-- One call on the adapter's reader face: `poll_read` with a buffer
length, or `poll_fill_buf`. -/
inductive AdapterOp where
  | read (bufLen : Nat)
  | fillBuf
deriving DecidableEq, Repr

/-- Apply one `AdapterOp`. -/
def applyOp (r : IntoAsyncRead) : AdapterOp → Except IOErr (List Nat) × IntoAsyncRead
  | AdapterOp.read n => poll_read r n
  | AdapterOp.fillBuf => poll_fill_buf r

/-- Run a sequence of reader-face operations, collecting each result. -/
def runOps (r : IntoAsyncRead) : List AdapterOp →
    List (Except IOErr (List Nat)) × IntoAsyncRead
  | [] => ([], r)
  | op :: rest =>
      ((applyOp r op).1 :: (runOps (applyOp r op).2 rest).1,
        (runOps (applyOp r op).2 rest).2)

end IntoAsyncReadModel

namespace ExecutorBridgeModel

/-- The legacy protocol's submission error
(`futures_01::future::ExecuteErrorKind`): the target executor is shut
down or out of capacity.  The legacy `ExecuteError` also returns the
rejected future; only the kind matters to the bridge, which discards
it. -/
inductive ExecuteErrorKind where
  | shutdown
  | noCapacity
deriving DecidableEq, Repr

/-- The current protocol's submission error (`SpawnError03`); the only
constructor the code uses is `SpawnError03::shutdown()`. -/
inductive SpawnError where
  | shutdown
deriving DecidableEq, Repr

/-- Modelled from the spec: the `unit_error` future combinator (not
under `src/`; spec §4.1 "error channel is erased ... to a unit-typed
success").  It wraps a task's outcome `x` as `Ok(x)` with unit error
type. -/
def unit_error {α : Type} (o : α) : Except Unit α := Except.ok o

/-- Modelled from the spec: the `compat` conversion (not under `src/`;
spec §4.1 "This is representation translation only") carries a task's
outcome across the protocol boundary unchanged. -/
def compatOutcome (o : Except Unit Unit) : Except Unit Unit := o

/-- Modelled from the spec: the `map` future combinator (not under
`src/`; spec §1 lists combinators as external collaborators) applies a
function to the task's outcome. -/
def futMap {α β : Type} (f : α → β) (o : α) : β := f o

/-- The value with which the future handed to the legacy executor in
`Executor01As03::spawn_obj` resolves, as a function of the wrapped
task's outcome (`FutureObj<'static, ()>`, so the outcome type is unit):
`future.unit_error().compat()`. -/
def spawn_obj_handoff (o : Unit) : Except Unit Unit := compatOutcome (unit_error o)

/-- The result of `Executor01As03::spawn_obj` as a function of the
legacy target's `execute` result:
`self.executor01.execute(future).map_err(|_| SpawnError03::shutdown())`. -/
def spawn_obj_result (executeResult : Except ExecuteErrorKind Unit) :
    Except SpawnError Unit :=
  match executeResult with
  | Except.ok u => Except.ok u
  | Except.error _ => Except.error SpawnError.shutdown

/-- The outcome of the task handed to the current-protocol spawner in
`Compat::<Sp>::execute`, as a function of the legacy future's outcome
(`Item = (), Error = ()`): `future.compat().map(|_| ())`. -/
def execute_handoff (o : Except Unit Unit) : Unit :=
  futMap (fun _ => ()) (compatOutcome o)

/-- What `Compat::<Sp>::execute` does, observed by its caller. -/
inductive ExecuteOutcome where
  | ok
  | legacyError
  | panicked
deriving DecidableEq, Repr

/-- The result of `Compat::<Sp>::execute` as a function of the current
spawner's result: `(&self.inner).spawn(...).expect("unable to spawn
future from Compat executor"); Ok(())` — a refusal hits the `expect`
and aborts instead of producing `Err(ExecuteError01)`. -/
def execute (spawnResult : Except SpawnError Unit) : ExecuteOutcome :=
  match spawnResult with
  | Except.ok _ => ExecuteOutcome.ok
  | Except.error _ => ExecuteOutcome.panicked

end ExecutorBridgeModel

namespace TcpModel

/-- A bound OS listener socket, identified by its descriptor. -/
structure OsListener where
  fd : Nat
deriving DecidableEq, Repr

/-- What `LoopHandle::tcp_listen` returns: always a boxed future —
either the `TcpListener::new` path on a successful OS bind, or
`failed(e).boxed()` on an immediate OS failure. -/
inductive ListenFuture where
  | listener (l : OsListener)
  | failedFut (e : IOErr)
deriving DecidableEq, Repr

/-- `LoopHandle::tcp_listen`, as a function of the synchronous
`mio::tcp::TcpListener::bind(addr)` result. -/
def tcp_listen (bindResult : Except IOErr OsListener) : ListenFuture :=
  match bindResult with
  | Except.ok l => ListenFuture.listener l
  | Except.error e => ListenFuture.failedFut e

/-- Modelled from the spec: resolving the future `tcp_listen` returns
(the `futures` crate's `failed(e)` future and the `TcpListener::new`
path are not under `src/`): `failed(e)` resolves to `Err(e)` when
polled; the listener path resolves to the listener. -/
def pollListenFuture : ListenFuture → Except IOErr OsListener
  | ListenFuture.listener l => Except.ok l
  | ListenFuture.failedFut e => Except.error e

/-- Modelled from the spec: "synchronous OS bind+listen; immediate OS
failures (e.g., address in use) fail the call synchronously, not
through polling" — a `bind` whose immediate failure is returned from
the call itself rather than packed into a future. -/
def tcp_listen_spec (bindResult : Except IOErr OsListener) :
    Except IOErr ListenFuture :=
  match bindResult with
  | Except.ok l => Except.ok (ListenFuture.listener l)
  | Except.error e => Except.error e

/-- A connected `TcpStream` as `TcpStream::new` assembles it: the
untouched read-readiness signal stream and what is left of the
write-readiness signal stream after the connect handshake consumed a
prefix of it. -/
structure TcpStream where
  ready_read : List Unit
  ready_write : List (Except IOErr Unit)
deriving DecidableEq, Repr

/-- Outcome of the connect future. -/
inductive ConnectOutcome where
  | connected (s : TcpStream)
  | failed (e : IOErr)
  | pending
deriving DecidableEq, Repr

/-- The `skip_while`/`into_future` chain of `TcpStream::new`: each
write-readiness firing is paired with the `take_socket_error()` result
observed at it.  `Ok(())` stops the skip and completes the connect
(the remaining write-readiness stream becomes the stream's
`ready_write`); a `WouldBlock` error keeps skipping (re-waits on
write-readiness); any other error fails the future.  An exhausted
readiness stream leaves the future pending forever. -/
def tcp_stream_new (ready_read : List Unit)
    (ready_write : List (Except IOErr Unit)) : ConnectOutcome :=
  match ready_write with
  | [] => ConnectOutcome.pending
  | q :: rest =>
      match q with
      | Except.ok _ => ConnectOutcome.connected ⟨ready_read, rest⟩
      | Except.error e =>
          if e.kind = ErrorKind.wouldBlock then tcp_stream_new ready_read rest
          else ConnectOutcome.failed e

/-- `TcpStream::connect_stream`: an immediate failure of the
non-blocking OS connect produces a `failed(e)` future; otherwise the
`TcpStream::new` wait-and-query loop runs. -/
def connect_stream (osConnect : Except IOErr Unit) (ready_read : List Unit)
    (ready_write : List (Except IOErr Unit)) : ConnectOutcome :=
  match osConnect with
  | Except.ok _ => tcp_stream_new ready_read ready_write
  | Except.error e => ConnectOutcome.failed e

end TcpModel

namespace InterleavePendingModel

/-- The wrapped reader of the doc examples (`std::io::Cursor` over a
byte slice): a byte list with a read position; always ready. -/
structure Cursor where
  data : List Nat
  pos : Nat
deriving DecidableEq, Repr

/-- One read on the bare cursor: deliver `min(bufLen, remaining)` bytes
and advance. -/
def cursorRead (c : Cursor) (bufLen : Nat) : List Nat × Cursor :=
  let out := (c.data.drop c.pos).take bufLen
  (out, { c with pos := c.pos + out.length })

/-- Modelled from the spec: `InterleavePending` (implementation not
under `src/`; spec §4.4 and the doc examples in
`futures-test/src/io/read/mod.rs`): a wrapped reader plus the
alternation toggle. -/
structure InterleavePending where
  reader : Cursor
  ready : Bool
deriving DecidableEq, Repr

/-- Modelled from the spec: the wrapper "starts in the not-ready
phase". -/
def InterleavePending.new (c : Cursor) : InterleavePending := ⟨c, false⟩

/-- Modelled from the spec: the byte-read operation "alternates not
ready yet (no upstream access) and exactly one real delegated
operation"; `none` is `Poll::Pending`. -/
def ip_poll_read (ip : InterleavePending) (bufLen : Nat) :
    Option (List Nat) × InterleavePending :=
  if ip.ready then
    let (out, c') := cursorRead ip.reader bufLen
    (some out, ⟨c', false⟩)
  else (none, ⟨ip.reader, true⟩)

/-- Modelled from the spec: the peek operation toggles exactly like the
byte-read operation; a ready peek exposes the cursor's unconsumed
bytes. -/
def ip_poll_fill_buf (ip : InterleavePending) :
    Option (List Nat) × InterleavePending :=
  if ip.ready then (some (ip.reader.data.drop ip.reader.pos), ⟨ip.reader, false⟩)
  else (none, ⟨ip.reader, true⟩)

/-- Modelled from the spec: "`consume` never toggles (it cannot
suspend)" — it advances the wrapped cursor and leaves the toggle
alone. -/
def ip_consume (ip : InterleavePending) (n : Nat) : InterleavePending :=
  ⟨⟨ip.reader.data, ip.reader.pos + n⟩, ip.ready⟩

/-- Poll the wrapper once per entry of `polls`, collecting each poll's
outcome. -/
def ipRun (ip : InterleavePending) : List Nat →
    List (Option (List Nat)) × InterleavePending
  | [] => ([], ip)
  | n :: rest =>
      ((ip_poll_read ip n).1 :: (ipRun (ip_poll_read ip n).2 rest).1,
        (ipRun (ip_poll_read ip n).2 rest).2)

/-- Drive the bare cursor once per entry of `polls`. -/
def bareRun (c : Cursor) : List Nat → List (List Nat) × Cursor
  | [] => ([], c)
  | n :: rest =>
      ((cursorRead c n).1 :: (bareRun (cursorRead c n).2 rest).1,
        (bareRun (cursorRead c n).2 rest).2)

/-- Each underlying operation polled twice: the caller retries every
poll once after the injected `Pending`. -/
def dup : List Nat → List Nat
  | [] => []
  | n :: rest => n :: n :: dup rest

/-- The poll outcomes the spec requires: strictly alternating
not-ready / delegated result, starting not-ready. -/
def interleaveNone : List (List Nat) → List (Option (List Nat))
  | [] => []
  | o :: rest => none :: some o :: interleaveNone rest

example : ipRun (InterleavePending.new ⟨[1,2,3], 0⟩) [2,2,2,2,2,2] =
    ([none, some [1,2], none, some [3], none, some []],
      ⟨⟨[1,2,3], 3⟩, false⟩) := by decide

end InterleavePendingModel

namespace IntoAsyncReadModel

theorem inv_pendingChunk (s : List (Except IOErr (List Nat))) :
    Inv ⟨s, ReadState.PendingChunk⟩ := by
  intro c cs h
  simp at h

theorem inv_eof (s : List (Except IOErr (List Nat))) :
    Inv ⟨s, ReadState.Eof⟩ := by
  intro c cs h
  simp at h

theorem poll_read_eof_eq (r : IntoAsyncRead) (n : Nat)
    (h : r.state = ReadState.Eof) :
    poll_read r n = (Except.ok [], r) := by
  obtain ⟨s, st⟩ := r
  simp only at h
  subst h
  rfl

theorem poll_read_ok_step (r r' : IntoAsyncRead) (n : Nat) (out : List Nat)
    (hinv : Inv r) (h : poll_read r n = (Except.ok out, r')) :
    Inv r' ∧ out ++ remaining r' = remaining r := by
  obtain ⟨s, st⟩ := r
  cases st with
  | Eof =>
      simp only [poll_read] at h
      obtain ⟨ho, hr⟩ := Prod.mk.injEq .. ▸ h
      cases ho
      cases hr
      exact ⟨inv_eof s, rfl⟩
  | Ready c cs =>
      have hcs : cs < c.length := hinv c cs rfl
      by_cases hc : c.length = cs + min n (c.length - cs)
      · simp only [poll_read, readFromChunk, if_pos hc, Prod.mk.injEq] at h
        obtain ⟨ho, hr⟩ := h
        cases ho
        cases hr
        refine ⟨inv_pendingChunk s, ?_⟩
        have hlen : (c.drop cs).length ≤ min n (c.length - cs) := by
          simp only [List.length_drop]
          omega
        simp only [remaining, List.take_of_length_le hlen]
      · simp only [poll_read, readFromChunk, if_neg hc, Prod.mk.injEq] at h
        obtain ⟨ho, hr⟩ := h
        cases ho
        cases hr
        have hmin : min n (c.length - cs) ≤ c.length - cs := Nat.min_le_right _ _
        constructor
        · intro c' cs' h'
          simp only [ReadState.Ready.injEq] at h'
          obtain ⟨h1, h2⟩ := h'
          subst h1
          subst h2
          omega
        · simp only [remaining]
          rw [← List.append_assoc]
          congr 1
          have hdd : c.drop (cs + min n (c.length - cs)) =
              (c.drop cs).drop (min n (c.length - cs)) := by
            rw [List.drop_drop]
          rw [hdd, List.take_append_drop]
  | PendingChunk =>
      cases s with
      | nil =>
          simp only [poll_read, Prod.mk.injEq] at h
          obtain ⟨ho, hr⟩ := h
          cases ho
          cases hr
          exact ⟨inv_eof [], rfl⟩
      | cons q rest =>
          cases q with
          | error e =>
              simp only [poll_read] at h
              simp at h
          | ok c =>
              by_cases hc : c.length = 0 + min n (c.length - 0)
              · simp only [poll_read, readFromChunk, if_pos hc, Prod.mk.injEq] at h
                obtain ⟨ho, hr⟩ := h
                cases ho
                cases hr
                refine ⟨inv_pendingChunk rest, ?_⟩
                have hlen : c.length ≤ min n (c.length - 0) := by omega
                simp only [remaining, goodPrefix, List.drop_zero]
                rw [List.take_of_length_le hlen]
              · simp only [poll_read, readFromChunk, if_neg hc, Prod.mk.injEq] at h
                obtain ⟨ho, hr⟩ := h
                cases ho
                cases hr
                have hmin : min n (c.length - 0) ≤ c.length - 0 := Nat.min_le_right _ _
                constructor
                · intro c' cs' h'
                  simp only [ReadState.Ready.injEq] at h'
                  obtain ⟨h1, h2⟩ := h'
                  subst h1
                  subst h2
                  omega
                · simp only [remaining, goodPrefix]
                  rw [← List.append_assoc]
                  congr 1
                  have hdd : c.drop (0 + min n (c.length - 0)) =
                      (c.drop 0).drop (min n (c.length - 0)) := by
                    rw [List.drop_drop]
                  rw [hdd, List.take_append_drop, List.drop_zero]

theorem poll_read_err_step (r r' : IntoAsyncRead) (n : Nat) (e : IOErr)
    (h : poll_read r n = (Except.error e, r')) :
    remaining r = [] ∧ r'.state = ReadState.Eof ∧ remaining r' = [] := by
  obtain ⟨s, st⟩ := r
  cases st with
  | Eof =>
      simp only [poll_read] at h
      simp at h
  | Ready c cs =>
      simp only [poll_read, readFromChunk, Prod.mk.injEq] at h
      exact absurd h.1 (by simp)
  | PendingChunk =>
      cases s with
      | nil =>
          simp only [poll_read] at h
          simp at h
      | cons q rest =>
          cases q with
          | ok c =>
              simp only [poll_read, readFromChunk, Prod.mk.injEq] at h
              exact absurd h.1 (by simp)
          | error e' =>
              simp only [poll_read, Prod.mk.injEq, Except.error.injEq] at h
              obtain ⟨ho, hr⟩ := h
              cases ho
              cases hr
              exact ⟨rfl, rfl, rfl⟩

theorem poll_read_progress (r : IntoAsyncRead) (n : Nat)
    (hinv : Inv r) (hn : 1 ≤ n) (hne : r.state ≠ ReadState.Eof) :
    drainMeasure (poll_read r n).2 < drainMeasure r := by
  obtain ⟨s, st⟩ := r
  cases st with
  | Eof => exact absurd rfl hne
  | Ready c cs =>
      have hcs : cs < c.length := hinv c cs rfl
      by_cases hc : c.length = cs + min n (c.length - cs)
      · simp only [poll_read, readFromChunk, if_pos hc, drainMeasure, remaining,
          List.length_append, List.length_drop]
        omega
      · simp only [poll_read, readFromChunk, if_neg hc, drainMeasure, remaining,
          List.length_append, List.length_drop]
        omega
  | PendingChunk =>
      cases s with
      | nil =>
          simp only [poll_read, drainMeasure, remaining, goodPrefix,
            List.length_nil]
          omega
      | cons q rest =>
          cases q with
          | error e =>
              simp only [poll_read, drainMeasure, remaining, goodPrefix,
                List.length_cons]
              omega
          | ok c =>
              by_cases hc : c.length = 0 + min n (c.length - 0)
              · simp only [poll_read, readFromChunk, if_pos hc, drainMeasure,
                  remaining, goodPrefix, List.length_append, List.length_cons]
                omega
              · simp only [poll_read, readFromChunk, if_neg hc, drainMeasure,
                  remaining, goodPrefix, List.length_append, List.length_drop,
                  List.length_cons]
                omega

theorem readAll_prefix_inv : ∀ (bufLens : List Nat) (r : IntoAsyncRead),
    Inv r →
    (readAll r bufLens).1 ++ remaining (readAll r bufLens).2 = remaining r ∧
      Inv (readAll r bufLens).2 := by
  intro bufLens
  induction bufLens with
  | nil =>
      intro r hinv
      exact ⟨by simp [readAll], hinv⟩
  | cons n rest ih =>
      intro r hinv
      rcases hpoll : poll_read r n with ⟨res, r'⟩
      cases res with
      | error e =>
          have herr := poll_read_err_step r r' n e hpoll
          constructor
          · simp only [readAll, hpoll, List.nil_append]
            rw [herr.1, herr.2.2]
          · simp only [readAll, hpoll]
            intro c cs hh
            rw [herr.2.1] at hh
            simp at hh
      | ok out =>
          have hok := poll_read_ok_step r r' n out hinv hpoll
          have hrec := ih r' hok.1
          constructor
          · simp only [readAll, hpoll]
            rw [List.append_assoc, hrec.1, hok.2]
          · simp only [readAll, hpoll]
            exact hrec.2

theorem readAll_drain : ∀ (bufLens : List Nat) (r : IntoAsyncRead),
    Inv r → (∀ m ∈ bufLens, 1 ≤ m) → drainMeasure r ≤ bufLens.length →
    (readAll r bufLens).1 = remaining r := by
  intro bufLens
  induction bufLens with
  | nil =>
      intro r hinv _ hmeas
      obtain ⟨s, st⟩ := r
      cases st with
      | Eof => simp [readAll, remaining]
      | Ready c cs =>
          exfalso
          simp only [drainMeasure, List.length_nil, Nat.le_zero] at hmeas
          omega
      | PendingChunk =>
          exfalso
          simp only [drainMeasure, List.length_nil, Nat.le_zero] at hmeas
          omega
  | cons n rest ih =>
      intro r hinv hpos hmeas
      by_cases he : r.state = ReadState.Eof
      · have heq := poll_read_eof_eq r n he
        have hm0 : drainMeasure r = 0 := by
          obtain ⟨s, st⟩ := r
          simp only at he
          subst he
          simp [drainMeasure, remaining]
        have hrec := ih r hinv (fun m hm => hpos m (List.mem_cons_of_mem _ hm))
          (by omega)
        simp only [readAll, heq, List.nil_append]
        exact hrec
      · rcases hpoll : poll_read r n with ⟨res, r'⟩
        have hprog : drainMeasure r' < drainMeasure r := by
          have hp := poll_read_progress r n hinv (hpos n (List.mem_cons_self n rest)) he
          rwa [hpoll] at hp
        cases res with
        | error e =>
            have herr := poll_read_err_step r r' n e hpoll
            simp only [readAll, hpoll]
            exact herr.1.symm
        | ok out =>
            have hok := poll_read_ok_step r r' n out hinv hpoll
            have hlen : drainMeasure r' ≤ rest.length := by
              simp only [List.length_cons] at hmeas
              omega
            have hrec := ih r' hok.1
              (fun m hm => hpos m (List.mem_cons_of_mem _ hm)) hlen
            simp only [readAll, hpoll]
            rw [hrec, hok.2]

theorem poll_fill_buf_eof_eq (r : IntoAsyncRead)
    (h : r.state = ReadState.Eof) :
    poll_fill_buf r = (Except.ok [], r) := by
  obtain ⟨s, st⟩ := r
  simp only at h
  subst h
  rfl

theorem poll_fill_buf_err_step (r r' : IntoAsyncRead) (e : IOErr)
    (h : poll_fill_buf r = (Except.error e, r')) :
    r'.state = ReadState.Eof := by
  obtain ⟨s, st⟩ := r
  cases st with
  | Eof =>
      simp only [poll_fill_buf] at h
      simp at h
  | Ready c cs =>
      simp only [poll_fill_buf, Prod.mk.injEq] at h
      exact absurd h.1 (by simp)
  | PendingChunk =>
      cases s with
      | nil =>
          simp only [poll_fill_buf] at h
          simp at h
      | cons q rest =>
          cases q with
          | ok c =>
              simp only [poll_fill_buf, Prod.mk.injEq] at h
              exact absurd h.1 (by simp)
          | error e' =>
              simp only [poll_fill_buf, Prod.mk.injEq] at h
              rw [← h.2]

theorem runOps_eof (r : IntoAsyncRead) (h : r.state = ReadState.Eof) :
    ∀ ops, runOps r ops = (ops.map (fun _ => Except.ok []), r) := by
  intro ops
  induction ops with
  | nil => simp [runOps]
  | cons op rest ih =>
      have h1 : applyOp r op = (Except.ok [], r) := by
        cases op with
        | read n => exact poll_read_eof_eq r n h
        | fillBuf => exact poll_fill_buf_eof_eq r h
      simp [runOps, h1, ih]

/-- C1: for every finite chunk sequence fed to the adapter (zero-length
chunks and the immediately-ending sequence included), driving
`poll_read` with caller buffers of arbitrary sizes delivers exactly a
prefix of the concatenation of the chunks produced before the first
error or end of stream (no byte twice, none re-exposed), and once the
drive comprises enough reads with non-empty buffers it delivers that
concatenation in full, the total bytes returned equalling the total
bytes produced. -/
theorem intoAsyncRead_reads_concatenation
    (s : List (Except IOErr (List Nat))) (ns : List Nat) :
    (readAll (IntoAsyncRead.new s) ns).1 ++
        remaining (readAll (IntoAsyncRead.new s) ns).2 = goodPrefix s ∧
    ((∀ m ∈ ns, 1 ≤ m) → (goodPrefix s).length + s.length + 1 ≤ ns.length →
      (readAll (IntoAsyncRead.new s) ns).1 = goodPrefix s) := by
  have hinv : Inv (IntoAsyncRead.new s) := inv_pendingChunk s
  refine ⟨(readAll_prefix_inv ns (IntoAsyncRead.new s) hinv).1, ?_⟩
  intro hpos hlen
  have hm : drainMeasure (IntoAsyncRead.new s) =
      (goodPrefix s).length + s.length + 1 := rfl
  rw [← hm] at hlen
  exact readAll_drain ns _ hinv hpos hlen

/-- Witness for C1 at the spec's own scenario, chunks `[1,2]`, `[]`,
`[3]` read with one-byte buffers. -/
theorem intoAsyncRead_reads_concatenation_witness :
    (readAll (IntoAsyncRead.new [Except.ok [1,2], Except.ok [], Except.ok [3]])
      [1,1,1,1,1,1,1]).1 =
      goodPrefix [Except.ok [1,2], Except.ok [], Except.ok [3]] :=
  (intoAsyncRead_reads_concatenation
    [Except.ok [1,2], Except.ok [], Except.ok [3]] [1,1,1,1,1,1,1]).2
    (by decide) (by decide)

/-- C2: once the adapter is in `Eof`, every `poll_read` returns
`Ready(Ok(0))` and every `poll_fill_buf` an empty slice, leaving the
adapter — in particular its upstream stream — untouched, over any
sequence of further reader operations; and an error returned by either
operation latches the state to `Eof`, so an upstream error is surfaced
exactly once. -/
theorem intoAsyncRead_eof_latched (r r' r'' : IntoAsyncRead) (n : Nat)
    (e e' : IOErr) (ops : List AdapterOp) :
    (r.state = ReadState.Eof →
      poll_read r n = (Except.ok [], r) ∧
      poll_fill_buf r = (Except.ok [], r) ∧
      runOps r ops = (ops.map (fun _ => Except.ok []), r)) ∧
    (poll_read r n = (Except.error e, r') → r'.state = ReadState.Eof) ∧
    (poll_fill_buf r = (Except.error e', r'') → r''.state = ReadState.Eof) := by
  refine ⟨fun he => ⟨poll_read_eof_eq r n he, poll_fill_buf_eof_eq r he,
    runOps_eof r he ops⟩, fun h => (poll_read_err_step r r' n e h).2.1,
    fun h => poll_fill_buf_err_step r r'' e' h⟩

/-- Witness for C2: an exhausted adapter (with items still queued
upstream after an error was surfaced) answers a read, a peek, and an
operation sequence with empty results and no state change; and a
surfaced error latches `Eof`. -/
theorem intoAsyncRead_eof_latched_witness :
    (poll_read ⟨[Except.ok [7]], ReadState.Eof⟩ 3 =
      (Except.ok [], ⟨[Except.ok [7]], ReadState.Eof⟩) ∧
     poll_fill_buf ⟨[Except.ok [7]], ReadState.Eof⟩ =
      (Except.ok [], ⟨[Except.ok [7]], ReadState.Eof⟩) ∧
     runOps ⟨[Except.ok [7]], ReadState.Eof⟩
        [AdapterOp.read 2, AdapterOp.fillBuf] =
      ([Except.ok [], Except.ok []], ⟨[Except.ok [7]], ReadState.Eof⟩)) ∧
    (⟨[Except.ok [7]], ReadState.Eof⟩ : IntoAsyncRead).state = ReadState.Eof ∧
    (⟨[Except.ok [7]], ReadState.Eof⟩ : IntoAsyncRead).state = ReadState.Eof := by
  refine ⟨?_, ?_, ?_⟩
  · exact (intoAsyncRead_eof_latched ⟨[Except.ok [7]], ReadState.Eof⟩
      ⟨[], ReadState.Eof⟩ ⟨[], ReadState.Eof⟩ 3
      ⟨ErrorKind.other, 0⟩ ⟨ErrorKind.other, 0⟩
      [AdapterOp.read 2, AdapterOp.fillBuf]).1 rfl
  · exact (intoAsyncRead_eof_latched
      ⟨[Except.error ⟨ErrorKind.other, 0⟩, Except.ok [7]], ReadState.PendingChunk⟩
      ⟨[Except.ok [7]], ReadState.Eof⟩ ⟨[], ReadState.Eof⟩ 3
      ⟨ErrorKind.other, 0⟩ ⟨ErrorKind.other, 0⟩ []).2.1 (by decide)
  · exact (intoAsyncRead_eof_latched
      ⟨[Except.error ⟨ErrorKind.other, 0⟩, Except.ok [7]], ReadState.PendingChunk⟩
      ⟨[], ReadState.Eof⟩ ⟨[Except.ok [7]], ReadState.Eof⟩ 3
      ⟨ErrorKind.other, 0⟩ ⟨ErrorKind.other, 0⟩ []).2.2 (by decide)

theorem reachInv_new (s : List (Except IOErr (List Nat))) :
    ReachInv (IntoAsyncRead.new s) := by
  intro c cs h
  simp [IntoAsyncRead.new] at h

theorem reachInv_poll_read (r : IntoAsyncRead) (n : Nat)
    (hinv : ReachInv r) : ReachInv (poll_read r n).2 := by
  obtain ⟨s, st⟩ := r
  cases st with
  | Eof => exact hinv
  | Ready c cs =>
      by_cases hc : c.length = cs + min n (c.length - cs)
      · simp only [poll_read, readFromChunk, if_pos hc]
        intro c' cs' hh
        simp at hh
      · simp only [poll_read, readFromChunk, if_neg hc]
        intro c' cs' hh
        simp only [ReadState.Ready.injEq] at hh
        obtain ⟨h1, h2⟩ := hh
        subst h1
        subst h2
        left
        rcases hinv c cs rfl with hlt | ⟨hz, hnil⟩
        · have := Nat.min_le_right n (c.length - cs)
          omega
        · subst hz
          subst hnil
          simp at hc
  | PendingChunk =>
      cases s with
      | nil =>
          intro c' cs' hh
          simp [poll_read] at hh
      | cons q rest =>
          cases q with
          | error e =>
              intro c' cs' hh
              simp [poll_read] at hh
          | ok c =>
              by_cases hc : c.length = 0 + min n (c.length - 0)
              · simp only [poll_read, readFromChunk, if_pos hc]
                intro c' cs' hh
                simp at hh
              · simp only [poll_read, readFromChunk, if_neg hc]
                intro c' cs' hh
                simp only [ReadState.Ready.injEq] at hh
                obtain ⟨h1, h2⟩ := hh
                subst h1
                subst h2
                left
                have := Nat.min_le_right n (c.length - 0)
                omega

theorem reachInv_poll_fill_buf (r : IntoAsyncRead)
    (hinv : ReachInv r) : ReachInv (poll_fill_buf r).2 := by
  obtain ⟨s, st⟩ := r
  cases st with
  | Eof => exact hinv
  | Ready c cs => exact hinv
  | PendingChunk =>
      cases s with
      | nil =>
          intro c' cs' hh
          simp [poll_fill_buf] at hh
      | cons q rest =>
          cases q with
          | error e =>
              intro c' cs' hh
              simp [poll_fill_buf] at hh
          | ok c =>
              intro c' cs' hh
              simp only [poll_fill_buf, ReadState.Ready.injEq] at hh
              obtain ⟨h1, h2⟩ := hh
              subst h1
              subst h2
              cases c with
              | nil => exact Or.inr ⟨rfl, rfl⟩
              | cons b bs => left; simp

theorem reachInv_consume (r r'' : IntoAsyncRead) (n : Nat)
    (hinv : ReachInv r) (hc : consume r n = some r'') : ReachInv r'' := by
  obtain ⟨s, st⟩ := r
  cases st with
  | Eof => simp [consume] at hc
  | PendingChunk => simp [consume] at hc
  | Ready c cs =>
      by_cases h1 : cs + n ≤ c.length
      · simp only [consume, if_pos h1, Option.some.injEq] at hc
        by_cases h2 : c.length ≤ cs + n
        · rw [if_pos h2] at hc
          subst hc
          intro c' cs' hh
          simp at hh
        · rw [if_neg h2] at hc
          subst hc
          intro c' cs' hh
          simp only [ReadState.Ready.injEq] at hh
          obtain ⟨hh1, hh2⟩ := hh
          subst hh1
          subst hh2
          left
          omega
      · simp only [consume, if_neg h1] at hc
        exact Option.noConfusion hc

theorem fill_buf_empty_iff (r r' : IntoAsyncRead) (v : List Nat)
    (hinv : ReachInv r) (hp : poll_fill_buf r = (Except.ok v, r')) :
    v = [] ↔ r'.state = ReadState.Eof ∨ r'.state = ReadState.Ready [] 0 := by
  obtain ⟨s, st⟩ := r
  cases st with
  | Eof =>
      simp only [poll_fill_buf, Prod.mk.injEq, Except.ok.injEq] at hp
      obtain ⟨hv, hr⟩ := hp
      subst hv
      subst hr
      simp
  | Ready c cs =>
      simp only [poll_fill_buf, Prod.mk.injEq, Except.ok.injEq] at hp
      obtain ⟨hv, hr⟩ := hp
      subst hv
      subst hr
      rcases hinv c cs rfl with hlt | ⟨hz, hnil⟩
      · refine iff_of_false ?_ ?_
        · intro hdrop
          have := congrArg List.length hdrop
          simp only [List.length_drop, List.length_nil] at this
          omega
        · intro hor
          rcases hor with he | hready
          · simp at he
          · simp only [ReadState.Ready.injEq] at hready
            obtain ⟨h1, _⟩ := hready
            subst h1
            simp at hlt
      · subst hz
        subst hnil
        simp
  | PendingChunk =>
      cases s with
      | nil =>
          simp only [poll_fill_buf, Prod.mk.injEq, Except.ok.injEq] at hp
          obtain ⟨hv, hr⟩ := hp
          subst hv
          subst hr
          simp
      | cons q rest =>
          cases q with
          | error e =>
              simp only [poll_fill_buf, Prod.mk.injEq] at hp
              exact absurd hp.1 (by simp)
          | ok c =>
              simp only [poll_fill_buf, List.drop_zero, Prod.mk.injEq,
                Except.ok.injEq] at hp
              obtain ⟨hv, hr⟩ := hp
              subst hv
              subst hr
              cases c with
              | nil => simp
              | cons b bs => simp

theorem fill_buf_empty_chunk_source (r r' : IntoAsyncRead) (v : List Nat)
    (hp : poll_fill_buf r = (Except.ok v, r'))
    (hr : r'.state = ReadState.Ready [] 0) :
    r.state = ReadState.Ready [] 0 ∨ ∃ rest, r.stream = Except.ok [] :: rest := by
  obtain ⟨s, st⟩ := r
  cases st with
  | Eof =>
      simp only [poll_fill_buf, Prod.mk.injEq] at hp
      rw [← hp.2] at hr
      simp at hr
  | Ready c cs =>
      simp only [poll_fill_buf, Prod.mk.injEq] at hp
      rw [← hp.2] at hr
      simp only at hr
      exact Or.inl hr
  | PendingChunk =>
      cases s with
      | nil =>
          simp only [poll_fill_buf, Prod.mk.injEq] at hp
          rw [← hp.2] at hr
          simp at hr
      | cons q rest =>
          cases q with
          | error e =>
              simp only [poll_fill_buf, Prod.mk.injEq] at hp
              exact absurd hp.1 (by simp)
          | ok c =>
              simp only [poll_fill_buf, Prod.mk.injEq] at hp
              rw [← hp.2] at hr
              simp only [ReadState.Ready.injEq] at hr
              exact Or.inr ⟨rest, by rw [hr.1]⟩

/-- C3 counterexample: when the upstream yields a zero-length chunk,
`poll_fill_buf` returns an empty view while the adapter is in the
`Ready` state, not `Eof` — refuting "empty view iff Exhausted". -/
theorem intoAsyncRead_fill_buf_empty_not_exhausted :
    poll_fill_buf (IntoAsyncRead.new [Except.ok []]) =
      (Except.ok [], ⟨[], ReadState.Ready [] 0⟩) ∧
    (⟨[], ReadState.Ready [] 0⟩ : IntoAsyncRead).state ≠ ReadState.Eof := by
  decide

/-- C3 amended: over every adapter state reachable from `new` —
captured by `ReachInv`, which holds initially and is preserved by
`poll_read`, `poll_fill_buf` and successful `consume` — a completed
`poll_fill_buf` returns an empty view if and only if the adapter ends
the call Exhausted or holding the zero-length chunk `Ready [] 0`, and
the latter state arises only from the upstream yielding a zero-length
chunk; whenever the held chunk has unconsumed bytes, `poll_fill_buf`
exposes exactly that non-empty tail without touching the state. -/
theorem intoAsyncRead_fill_buf_empty_only_eof_or_empty_chunk
    (r r' r'' : IntoAsyncRead) (c v : List Nat) (cs n : Nat)
    (s : List (Except IOErr (List Nat))) :
    (r.state = ReadState.Ready c cs → cs < c.length →
      poll_fill_buf r = (Except.ok (c.drop cs), r) ∧ c.drop cs ≠ []) ∧
    (ReachInv r → poll_fill_buf r = (Except.ok v, r') →
      (v = [] ↔ r'.state = ReadState.Eof ∨ r'.state = ReadState.Ready [] 0)) ∧
    (poll_fill_buf r = (Except.ok v, r') → r'.state = ReadState.Ready [] 0 →
      r.state = ReadState.Ready [] 0 ∨ ∃ rest, r.stream = Except.ok [] :: rest) ∧
    ReachInv (IntoAsyncRead.new s) ∧
    (ReachInv r → ReachInv (poll_read r n).2) ∧
    (ReachInv r → ReachInv (poll_fill_buf r).2) ∧
    (ReachInv r → consume r n = some r'' → ReachInv r'') := by
  refine ⟨?_, fun hinv hp => fill_buf_empty_iff r r' v hinv hp,
    fun hp hr => fill_buf_empty_chunk_source r r' v hp hr,
    reachInv_new s, fun hinv => reachInv_poll_read r n hinv,
    fun hinv => reachInv_poll_fill_buf r hinv,
    fun hinv hc => reachInv_consume r r'' n hinv hc⟩
  intro hs hcs
  obtain ⟨s', st⟩ := r
  simp only at hs
  subst hs
  refine ⟨rfl, ?_⟩
  intro hnil
  have := congrArg List.length hnil
  simp only [List.length_drop, List.length_nil] at this
  omega

/-- Witness for the amended C3: the held chunk `[5]` is exposed whole
and non-empty; the state `Ready [] 0` left behind by peeking a
zero-length chunk satisfies the reachability invariant, a further peek
there returns the empty view explained by that held zero-length chunk,
and the invariant also holds on a fresh adapter, after a read, after a
peek, and after a consume. -/
theorem intoAsyncRead_fill_buf_empty_witness :
    (poll_fill_buf ⟨[], ReadState.Ready [5] 0⟩ =
        (Except.ok [5], ⟨[], ReadState.Ready [5] 0⟩) ∧
      ([5] : List Nat).drop 0 ≠ []) ∧
    (([] : List Nat) = [] ↔
      (⟨[Except.ok [1]], ReadState.Ready [] 0⟩ : IntoAsyncRead).state =
          ReadState.Eof ∨
        (⟨[Except.ok [1]], ReadState.Ready [] 0⟩ : IntoAsyncRead).state =
          ReadState.Ready [] 0) ∧
    ((IntoAsyncRead.new [Except.ok []]).state = ReadState.Ready [] 0 ∨
      ∃ rest, (IntoAsyncRead.new [Except.ok []]).stream = Except.ok [] :: rest) ∧
    ReachInv (IntoAsyncRead.new [Except.ok []]) ∧
    ReachInv (poll_read ⟨[Except.ok [1]], ReadState.Ready [] 0⟩ 4).2 ∧
    ReachInv (poll_fill_buf ⟨[Except.ok [1]], ReadState.Ready [] 0⟩).2 ∧
    ReachInv (⟨[], ReadState.PendingChunk⟩ : IntoAsyncRead) := by
  have hready : ReachInv (⟨[Except.ok [1]], ReadState.Ready [] 0⟩ : IntoAsyncRead) := by
    intro c cs h
    simp only [ReadState.Ready.injEq] at h
    exact Or.inr ⟨h.2.symm, h.1.symm⟩
  refine ⟨?_, ?_, ?_, ?_, ?_, ?_, ?_⟩
  · exact (intoAsyncRead_fill_buf_empty_only_eof_or_empty_chunk
      ⟨[], ReadState.Ready [5] 0⟩ ⟨[], ReadState.Eof⟩ ⟨[], ReadState.Eof⟩
      [5] [] 0 0 []).1 rfl (by decide)
  · exact (intoAsyncRead_fill_buf_empty_only_eof_or_empty_chunk
      ⟨[Except.ok [1]], ReadState.Ready [] 0⟩
      ⟨[Except.ok [1]], ReadState.Ready [] 0⟩ ⟨[], ReadState.Eof⟩
      [] [] 0 0 []).2.1 hready (by decide)
  · exact (intoAsyncRead_fill_buf_empty_only_eof_or_empty_chunk
      (IntoAsyncRead.new [Except.ok []]) ⟨[], ReadState.Ready [] 0⟩
      ⟨[], ReadState.Eof⟩ [] [] 0 0 []).2.2.1 (by decide) rfl
  · exact (intoAsyncRead_fill_buf_empty_only_eof_or_empty_chunk
      ⟨[], ReadState.Eof⟩ ⟨[], ReadState.Eof⟩ ⟨[], ReadState.Eof⟩
      [] [] 0 0 [Except.ok []]).2.2.2.1
  · exact (intoAsyncRead_fill_buf_empty_only_eof_or_empty_chunk
      ⟨[Except.ok [1]], ReadState.Ready [] 0⟩ ⟨[], ReadState.Eof⟩
      ⟨[], ReadState.Eof⟩ [] [] 0 4 []).2.2.2.2.1 hready
  · exact (intoAsyncRead_fill_buf_empty_only_eof_or_empty_chunk
      ⟨[Except.ok [1]], ReadState.Ready [] 0⟩ ⟨[], ReadState.Eof⟩
      ⟨[], ReadState.Eof⟩ [] [] 0 0 []).2.2.2.2.2.1 hready
  · exact (intoAsyncRead_fill_buf_empty_only_eof_or_empty_chunk
      ⟨[], ReadState.Ready [] 0⟩ ⟨[], ReadState.Eof⟩
      ⟨[], ReadState.PendingChunk⟩ [] [] 0 0 []).2.2.2.2.2.2
      (by
        intro c cs h
        simp only [ReadState.Ready.injEq] at h
        exact Or.inr ⟨h.2.symm, h.1.symm⟩)
      (by decide)

/-- C8: `consume(n)` requires `n ≤` the exposed view's length; within
the precondition it advances the cursor by exactly `n`, never past the
chunk length (discarding the chunk on exact exhaustion), and the
runtime check faults the call (`none`) when the precondition is
violated or no chunk is held. -/
theorem intoAsyncRead_consume_precondition (r : IntoAsyncRead)
    (c : List Nat) (cs n : Nat) :
    (r.state = ReadState.Ready c cs → cs ≤ c.length →
      n ≤ (c.drop cs).length →
      consume r n = some { r with state :=
          (if c.length ≤ cs + n then ReadState.PendingChunk
           else ReadState.Ready c (cs + n)) } ∧
        cs + n ≤ c.length) ∧
    (r.state = ReadState.Ready c cs → (c.drop cs).length < n →
      consume r n = none) ∧
    (r.state = ReadState.PendingChunk → consume r n = none) ∧
    (r.state = ReadState.Eof → consume r n = none) := by
  refine ⟨?_, ?_, ?_, ?_⟩
  · intro hs hcs hn
    obtain ⟨s, st⟩ := r
    simp only at hs
    subst hs
    simp only [List.length_drop] at hn
    have hle : cs + n ≤ c.length := by omega
    refine ⟨?_, hle⟩
    simp only [consume, if_pos hle]
  · intro hs hn
    obtain ⟨s, st⟩ := r
    simp only at hs
    subst hs
    simp only [List.length_drop] at hn
    have hgt : ¬ (cs + n ≤ c.length) := by omega
    simp only [consume, if_neg hgt]
  · intro hs
    obtain ⟨s, st⟩ := r
    simp only at hs
    subst hs
    rfl
  · intro hs
    obtain ⟨s, st⟩ := r
    simp only at hs
    subst hs
    rfl

/-- Witness for C8: consuming exactly the remaining two bytes of chunk
`[1,2,3]` at offset 1 discards the chunk; over-consuming, consuming
with no chunk held, and consuming after `Eof` all fault. -/
theorem intoAsyncRead_consume_precondition_witness :
    (consume ⟨[], ReadState.Ready [1,2,3] 1⟩ 2 =
        some ⟨[], ReadState.PendingChunk⟩ ∧ 1 + 2 ≤ 3) ∧
    consume ⟨[], ReadState.Ready [1,2,3] 1⟩ 5 = none ∧
    consume ⟨[], ReadState.PendingChunk⟩ 1 = none ∧
    consume ⟨[], ReadState.Eof⟩ 1 = none := by
  refine ⟨?_, ?_, ?_, ?_⟩
  · have h := (intoAsyncRead_consume_precondition
      ⟨[], ReadState.Ready [1,2,3] 1⟩ [1,2,3] 1 2).1 rfl (by decide) (by decide)
    exact ⟨by rw [h.1]; decide, h.2⟩
  · exact (intoAsyncRead_consume_precondition
      ⟨[], ReadState.Ready [1,2,3] 1⟩ [1,2,3] 1 5).2.1 rfl (by decide)
  · exact (intoAsyncRead_consume_precondition
      ⟨[], ReadState.PendingChunk⟩ [] 0 1).2.2.1 rfl
  · exact (intoAsyncRead_consume_precondition
      ⟨[], ReadState.Eof⟩ [] 0 1).2.2.2 rfl

/-- C10: a zero-length chunk makes `poll_read` return `Ready(Ok(0))`
while the stream has not ended — the adapter is not `Eof` and a later
`poll_read` returns a positive byte count — so a zero-byte read does
not imply exhaustion. -/
theorem intoAsyncRead_zero_read_not_end :
    poll_read (IntoAsyncRead.new [Except.ok [], Except.ok [1,2]]) 4 =
      (Except.ok [], ⟨[Except.ok [1,2]], ReadState.PendingChunk⟩) ∧
    (⟨[Except.ok [1,2]], ReadState.PendingChunk⟩ : IntoAsyncRead).state ≠
      ReadState.Eof ∧
    poll_read ⟨[Except.ok [1,2]], ReadState.PendingChunk⟩ 4 =
      (Except.ok [1,2], ⟨[], ReadState.PendingChunk⟩) ∧
    ([1,2] : List Nat).length = 2 := by
  decide

end IntoAsyncReadModel

namespace ExecutorBridgeModel

/-- C4 counterexample: when the wrapped current-protocol spawner
refuses a submission, the legacy face `Compat::<Sp>::execute` hits its
`expect` and aborts — it returns neither the legacy execute-error nor
success, refuting the claim that both faces return the protocol's
shutdown error. -/
theorem executorBridge_legacy_face_aborts_on_refusal :
    execute (Except.error SpawnError.shutdown) = ExecuteOutcome.panicked ∧
    ExecuteOutcome.panicked ≠ ExecuteOutcome.legacyError ∧
    ExecuteOutcome.panicked ≠ ExecuteOutcome.ok := by
  decide

/-- C4 amended: a refused submission makes the current-protocol face
(`Executor01As03::spawn_obj`) return `SpawnError::shutdown` and an
accepted one return success, while the legacy face
(`Compat::<Sp>::execute`) panics (aborts) on refusal — never returning
the legacy execute-error — and returns the legacy success on
acceptance. -/
theorem executorBridge_submit_results (er : ExecuteErrorKind) :
    spawn_obj_result (Except.error er) = Except.error SpawnError.shutdown ∧
    spawn_obj_result (Except.ok ()) = Except.ok () ∧
    execute (Except.error SpawnError.shutdown) = ExecuteOutcome.panicked ∧
    execute (Except.ok ()) = ExecuteOutcome.ok :=
  ⟨rfl, rfl, rfl, rfl⟩

/-- C5: toward the legacy protocol, the future handed to the legacy
executor resolves with the unit-typed success `Ok(())` for every
outcome of the (type-erased, unit-output) task, so no current-protocol
error value crosses the legacy boundary; and in the other face every
legacy outcome — success or failure — is mapped to the unit success
before handoff to the current spawner. -/
theorem executorBridge_error_erased_to_unit_success :
    (∀ o : Unit, spawn_obj_handoff o = Except.ok ()) ∧
    (∀ o : Except Unit Unit, execute_handoff o = ()) :=
  ⟨fun _ => rfl, fun _ => rfl⟩

end ExecutorBridgeModel

namespace TcpModel

theorem tcp_stream_new_skips_wouldBlock :
    ∀ (ws : List (Except IOErr Unit)) (rr : List Unit)
      (tail : List (Except IOErr Unit)),
      (∀ w ∈ ws, ∃ e, w = Except.error e ∧ e.kind = ErrorKind.wouldBlock) →
      tcp_stream_new rr (ws ++ tail) = tcp_stream_new rr tail := by
  intro ws
  induction ws with
  | nil => intro rr tail _; rfl
  | cons w ws ih =>
      intro rr tail hws
      obtain ⟨e, hw, hk⟩ := hws w (List.mem_cons_self w ws)
      subst hw
      simp only [List.cons_append, tcp_stream_new, if_pos hk]
      exact ih rr tail (fun w' hw' => hws w' (List.mem_cons_of_mem _ hw'))

/-- C6: after the non-blocking OS connect is initiated, the bridge
consumes write-readiness firings, querying the pending-error slot at
each: any number of would-block query results are skipped by re-waiting
on write-readiness; a clean query completes the connect with a stream
carrying the untouched read-readiness signal and the remaining
write-readiness signal (independent directions); any other error fails
the connect with exactly that error, and an immediately failing OS
connect fails it directly. -/
theorem tcpConnect_retries_wouldBlock_then_completes
    (ws rest : List (Except IOErr Unit)) (rr : List Unit) (e : IOErr)
    (hws : ∀ w ∈ ws, ∃ e', w = Except.error e' ∧ e'.kind = ErrorKind.wouldBlock)
    (he : e.kind ≠ ErrorKind.wouldBlock) :
    tcp_stream_new rr (ws ++ Except.ok () :: rest) =
      ConnectOutcome.connected ⟨rr, rest⟩ ∧
    tcp_stream_new rr (ws ++ Except.error e :: rest) =
      ConnectOutcome.failed e ∧
    connect_stream (Except.ok ()) rr (ws ++ Except.ok () :: rest) =
      ConnectOutcome.connected ⟨rr, rest⟩ ∧
    connect_stream (Except.error e) rr ws = ConnectOutcome.failed e := by
  have h1 := tcp_stream_new_skips_wouldBlock ws rr (Except.ok () :: rest) hws
  have h2 := tcp_stream_new_skips_wouldBlock ws rr (Except.error e :: rest) hws
  refine ⟨?_, ?_, ?_, rfl⟩
  · rw [h1]; rfl
  · rw [h2]
    simp only [tcp_stream_new, if_neg he]
  · show tcp_stream_new rr (ws ++ Except.ok () :: rest) = _
    rw [h1]; rfl

/-- Witness for C6: one would-block query then a clean query connects,
leaving independent readiness signals; a refused connect fails with
connection-refused. -/
theorem tcpConnect_retries_wouldBlock_witness :
    tcp_stream_new [()] [Except.error ⟨ErrorKind.wouldBlock, 0⟩,
        Except.ok (), Except.error ⟨ErrorKind.other, 9⟩] =
      ConnectOutcome.connected ⟨[()], [Except.error ⟨ErrorKind.other, 9⟩]⟩ ∧
    tcp_stream_new [()] [Except.error ⟨ErrorKind.wouldBlock, 0⟩,
        Except.error ⟨ErrorKind.connectionRefused, 1⟩] =
      ConnectOutcome.failed ⟨ErrorKind.connectionRefused, 1⟩ := by
  have h := tcpConnect_retries_wouldBlock_then_completes
    [Except.error ⟨ErrorKind.wouldBlock, 0⟩] [Except.error ⟨ErrorKind.other, 9⟩]
    [()] ⟨ErrorKind.connectionRefused, 1⟩
    (by
      intro w hw
      rw [List.mem_singleton] at hw
      exact ⟨⟨ErrorKind.wouldBlock, 0⟩, hw, rfl⟩)
    (by decide)
  refine ⟨h.1, ?_⟩
  have h' := tcpConnect_retries_wouldBlock_then_completes
    [Except.error ⟨ErrorKind.wouldBlock, 0⟩] []
    [()] ⟨ErrorKind.connectionRefused, 1⟩
    (by
      intro w hw
      rw [List.mem_singleton] at hw
      exact ⟨⟨ErrorKind.wouldBlock, 0⟩, hw, rfl⟩)
    (by decide)
  exact h'.2.1

/-- C7 counterexample: `tcp_listen` on an immediate OS bind failure
(address in use) returns a pollable future, and the error is delivered
by polling that future — refuting "the error is not delivered later
through polling a returned pollable object"; the sentence's literal
reading `tcp_listen_spec` returns the error from the call itself. -/
theorem tcpListen_error_delivered_through_polling :
    tcp_listen (Except.error ⟨ErrorKind.addrInUse, 7⟩) =
      ListenFuture.failedFut ⟨ErrorKind.addrInUse, 7⟩ ∧
    pollListenFuture (tcp_listen (Except.error ⟨ErrorKind.addrInUse, 7⟩)) =
      Except.error ⟨ErrorKind.addrInUse, 7⟩ ∧
    tcp_listen_spec (Except.error ⟨ErrorKind.addrInUse, 7⟩) =
      Except.error ⟨ErrorKind.addrInUse, 7⟩ := by
  decide

/-- C7 amended: the OS bind+listen runs synchronously inside the
`tcp_listen` call and an immediate OS failure is captured at call time
(never retried), but the call always returns a future: the failure is
delivered to the caller when that future is polled, resolving
immediately to the error. -/
theorem tcpListen_bind_synchronous_error_in_future (l : OsListener) (e : IOErr) :
    tcp_listen (Except.ok l) = ListenFuture.listener l ∧
    tcp_listen (Except.error e) = ListenFuture.failedFut e ∧
    pollListenFuture (tcp_listen (Except.error e)) = Except.error e :=
  ⟨rfl, rfl, rfl⟩

end TcpModel

namespace InterleavePendingModel

theorem dup_length : ∀ bs : List Nat, (dup bs).length = 2 * bs.length := by
  intro bs
  induction bs with
  | nil => rfl
  | cons b rest ih =>
      simp only [dup, List.length_cons, ih]
      omega

theorem ipRun_dup (bs : List Nat) : ∀ c : Cursor,
    ipRun (InterleavePending.new c) (dup bs) =
      (interleaveNone (bareRun c bs).1, ⟨(bareRun c bs).2, false⟩) := by
  induction bs with
  | nil => intro c; rfl
  | cons b rest ih =>
      intro c
      simp only [dup, ipRun, InterleavePending.new, ip_poll_read, Bool.false_eq_true,
        if_false, if_true, bareRun, interleaveNone]
      have := ih (cursorRead c b).2
      simp only [InterleavePending.new] at this
      rw [this]

/-- C9: draining a wrapped reader through `InterleavePending` takes
exactly twice as many polls as underlying operations — each poll pair
is a not-ready answer that leaves the wrapped reader untouched followed
by exactly one delegated operation, starting not-ready — and `consume`
never advances the toggle (the peek operation toggles like the read
operation). -/
theorem interleavePending_alternates (bs : List Nat) (c : Cursor)
    (ip : InterleavePending) (n : Nat) :
    ipRun (InterleavePending.new c) (dup bs) =
      (interleaveNone (bareRun c bs).1, ⟨(bareRun c bs).2, false⟩) ∧
    (dup bs).length = 2 * bs.length ∧
    ip_poll_read ⟨c, false⟩ n = (none, ⟨c, true⟩) ∧
    ip_poll_fill_buf ⟨c, false⟩ = (none, ⟨c, true⟩) ∧
    (ip_consume ip n).ready = ip.ready :=
  ⟨ipRun_dup bs c, dup_length bs, rfl, rfl, rfl⟩

end InterleavePendingModel
